import Mathlib

/-!
Verification of the `fix_auth.py` patch script.

The script reads one file, applies eight hardcoded literal string
replacement pairs in order via Python `str.replace` (global, literal,
leftmost-first, non-overlapping), writes the result back, and prints a
fixed success line.  We embed documents as `List Char`, Python
`str.replace` as the fuel-structural function `replaceAll`, the rule
table as `replacements`, and the whole run (including file I/O) as
`runScript` over an explicit filesystem model.
-/

namespace FixAuth

/-- The apostrophe character (U+0027), used inside several match texts. -/
def sq : Char := Char.ofNat 39

/-- A string wrapped in single quotes, as a character list. -/
def quoted (inner : String) : List Char := sq :: inner.data ++ [sq]

/-- The match text `authService.hasRole('<role>')` from the source. -/
def hasRoleOld (role : String) : List Char :=
  "authService.hasRole(".data ++ quoted role ++ ")".data

/-- Replacement text `true` used by the permission/role rules. -/
def trueNew : List Char := "true".data

/-- Replacement text `"System Administrator"` used by the display-name rules. -/
def adminNew : List Char := "\"System Administrator\"".data

/-- Fuel-indexed worker for Python `str.replace`: scans left to right; at a
position where `old` begins it emits `new` and jumps past the occurrence,
otherwise it copies one character.  Empty `old` inserts `new` before every
character and once at the end, exactly like Python.  The fuel only makes the
recursion structural; `fuel ≥ length of the text` makes it irrelevant. -/
def replaceAllF (old new : List Char) : Nat → List Char → List Char
  | _, [] => if old = [] then new else []
  | 0, c :: rest => c :: rest
  | fuel+1, c :: rest =>
    if old = [] then
      new ++ c :: replaceAllF old new fuel rest
    else if old.isPrefixOf (c :: rest) then
      new ++ replaceAllF old new fuel (rest.drop (old.length - 1))
    else
      c :: replaceAllF old new fuel rest

/-- Python `content.replace(old, new)` on character lists. -/
def replaceAll (old new s : List Char) : List Char :=
  replaceAllF old new s.length s

/-- The eight hardcoded `(match, replace)` pairs of `fix_auth.py`, in
source order. -/
def replacements : List (List Char × List Char) :=
  [ ("authService.getUserDisplayName()".data, adminNew),
    ("authService.getUserRoleDisplayName()".data, adminNew),
    ("authService.hasPermission(".data ++ quoted "citizen.create" ++ ")".data, trueNew),
    (hasRoleOld "system_administrator", trueNew),
    (hasRoleOld "registration_officer", trueNew),
    (hasRoleOld "field_enumerator", trueNew),
    (hasRoleOld "electoral_commissioner", trueNew),
    (hasRoleOld "admin", trueNew) ]

/-- One iteration of the `for old, new in replacements` loop body:
`content = content.replace(old, new)`. -/
def stepRepl (s : List Char) (p : List Char × List Char) : List Char :=
  replaceAll p.1 p.2 s

/-- The in-memory transformation performed by the script: the replacement
loop applied to the document content. -/
def fixAuthContent (content : List Char) : List Char :=
  replacements.foldl stepRepl content

/-- A filesystem: a partial map from paths to text contents. -/
structure FS where
  file : String → Option (List Char)

/-- Observable outcome of a run: final filesystem, stdout lines, and the
uncaught exception if one was raised. -/
structure RunResult where
  fs : FS
  stdout : List String
  err : Option String

/-- The fixed relative path the script reads and overwrites. -/
def targetPath : String := "src/components/AuthenticatedApp.tsx"

/-- The single success line printed by the script. -/
def successMessage : String := "Fixed all authService calls for admin access"

/-- The whole run of `fix_auth.py` on a filesystem: opening a missing file
for reading raises `FileNotFoundError` (nothing is created or written, and
nothing is printed); otherwise the content is transformed, written back to
the same path, and the success line is printed. -/
def runScript (fs : FS) : RunResult :=
  match fs.file targetPath with
  | none => ⟨fs, [], some "FileNotFoundError"⟩
  | some content =>
    ⟨⟨fun p => if p = targetPath then some (fixAuthContent content) else fs.file p⟩,
     [successMessage], none⟩

/-! ### Basic equations for `replaceAll` -/

theorem replaceAllF_fuel (old new : List Char) :
    ∀ f₁ f₂ s, s.length ≤ f₁ → s.length ≤ f₂ →
      replaceAllF old new f₁ s = replaceAllF old new f₂ s := by
  intro f₁
  induction f₁ with
  | zero =>
    intro f₂ s h₁ _
    have hs : s = [] := List.eq_nil_of_length_eq_zero (Nat.le_zero.mp h₁)
    subst hs
    cases f₂ <;> simp [replaceAllF]
  | succ f ih =>
    intro f₂ s h₁ h₂
    cases s with
    | nil => cases f₂ <;> simp [replaceAllF]
    | cons c rest =>
      cases f₂ with
      | zero => simp at h₂
      | succ f₂' =>
        simp only [replaceAllF]
        have hr : rest.length ≤ f := by simpa using h₁
        have hr₂ : rest.length ≤ f₂' := by simpa using h₂
        by_cases he : old = []
        · simp only [if_pos he]
          rw [ih f₂' rest hr hr₂]
        · simp only [if_neg he]
          by_cases hp : old.isPrefixOf (c :: rest) = true
          · simp only [if_pos hp]
            have hd : (rest.drop (old.length - 1)).length ≤ f := by
              simp only [List.length_drop]; omega
            have hd₂ : (rest.drop (old.length - 1)).length ≤ f₂' := by
              simp only [List.length_drop]; omega
            rw [ih f₂' _ hd hd₂]
          · simp only [if_neg hp]
            rw [ih f₂' rest hr hr₂]

theorem replaceAll_nil (old new : List Char) (h0 : old ≠ []) :
    replaceAll old new [] = [] := by
  simp [replaceAll, replaceAllF, h0]

theorem replaceAll_cons_no_match (old new : List Char) (c : Char) (rest : List Char)
    (h0 : old ≠ []) (h : ¬ old <+: c :: rest) :
    replaceAll old new (c :: rest) = c :: replaceAll old new rest := by
  have hb : ¬ old.isPrefixOf (c :: rest) = true := by
    simpa [ List.isPrefixOf_iff_prefix] using h
  simp [replaceAll, replaceAllF, h0, hb]

theorem replaceAll_cons_matched (old new : List Char) (c : Char) (rest : List Char)
    (h0 : old ≠ []) (h : old <+: c :: rest) :
    replaceAll old new (c :: rest) = new ++ replaceAll old new (rest.drop (old.length - 1)) := by
  have hb : old.isPrefixOf (c :: rest) = true := by
    simpa [ List.isPrefixOf_iff_prefix] using h
  show replaceAllF old new (c :: rest).length (c :: rest) = _
  simp only [List.length_cons, replaceAllF]
  rw [if_neg h0, if_pos hb]
  rw [replaceAllF_fuel old new rest.length (rest.drop (old.length - 1)).length
    (rest.drop (old.length - 1)) (by simp [List.length_drop]) (le_refl _)]
  rfl

theorem replaceAll_append_match (old new u : List Char) (h0 : old ≠ []) :
    replaceAll old new (old ++ u) = new ++ replaceAll old new u := by
  obtain ⟨c, os, rfl⟩ := List.exists_cons_of_ne_nil h0
  have h : (c :: os) <+: c :: (os ++ u) := ⟨u, by simp⟩
  rw [ List.cons_append, replaceAll_cons_matched (c :: os) new c (os ++ u) h0 h]
  simp [ List.drop_left]

/-! ### Spec-side relation: global literal leftmost-first replacement

`ReplacesTo old new s t` is written from the specification's words, not
from the code: `t` is `s` with every non-overlapping occurrence of `old`
replaced by `new`, found leftmost-first, and with all text outside the
replaced occurrences kept verbatim.  The `occ` rule demands that no
occurrence of `old` starts before the one being replaced (any such
occurrence would lie inside `a ++ old.dropLast`), and recursion continues
strictly after the replaced occurrence, so matches never overlap. -/

inductive ReplacesTo (old new : List Char) : List Char → List Char → Prop
  | no_occ (s : List Char) : ¬ old <:+: s → ReplacesTo old new s s
  | occ (a b t : List Char) :
      ¬ old <:+: a ++ old.dropLast → ReplacesTo old new b t →
      ReplacesTo old new (a ++ old ++ b) (a ++ new ++ t)

/-- Two lists are comparable when one starts with the other. -/
def Cmp (a b : List Char) : Prop := a <+: b ∨ b <+: a

/-- `Blocks x u`: the text `u` can never straddle a copy of the block `x`:
no alignment of `u` over `x` with a nonempty overlap is character-compatible.
Components: `u` starting at any position inside `x` (first conjunct), and
`u` starting before `x` and reaching into it (second conjunct). -/
def Blocks (x u : List Char) : Prop :=
  (∀ d, d < x.length → ¬ Cmp (x.drop d) u) ∧
  (∀ e, e < u.length → 0 < e → ¬ Cmp (u.drop e) x)

instance (a b : List Char) : Decidable (Cmp a b) := by
  unfold Cmp; infer_instance

instance (x u : List Char) : Decidable (Blocks x u) := by
  unfold Blocks; infer_instance

theorem cmp_symm {a b : List Char} (h : Cmp a b) : Cmp b a := Or.symm h

theorem cmp_of_common_start {u v w : List Char} (hu : u <+: w) (hv : v <+: w) :
    Cmp u v := by
  rcases Nat.le_total u.length v.length with h | h
  · exact Or.inl ( List.prefix_of_prefix_length_le hu hv h)
  · exact Or.inr ( List.prefix_of_prefix_length_le hv hu h)

theorem blocks_symm {x u : List Char} (hx : x ≠ []) (h : Blocks x u) : Blocks u x := by
  refine ⟨fun d hd => ?_, fun e he he0 => ?_⟩
  · cases d with
    | zero =>
      have := h.1 0 (by cases x with | nil => exact absurd rfl hx | cons a t => simp)
      simpa using fun hc => this (cmp_symm hc)
    | succ d' =>
      exact fun hc => h.2 (d' + 1) hd (Nat.succ_pos d') hc
  · exact fun hc => h.1 e he hc

/-! ### The code's `replaceAll` realises the spec's relation -/

theorem replaceAll_no_match_id (old new : List Char) :
    ∀ s, ¬ old <:+: s → replaceAll old new s = s := by
  intro s
  induction s with
  | nil =>
    intro h
    have h0 : old ≠ [] := by rintro rfl; exact h List.nil_infix
    exact replaceAll_nil old new h0
  | cons c rest ih =>
    intro h
    have h0 : old ≠ [] := by rintro rfl; exact h List.nil_infix
    have hp : ¬ old <+: c :: rest := fun hp => h hp.isInfix
    rw [replaceAll_cons_no_match old new c rest h0 hp,
      ih (fun hi => h ( List.infix_cons hi))]

theorem replacesTo_cons (old new : List Char) (c : Char) (rest t : List Char)
    (hp : ¬ old <+: c :: rest) (h : ReplacesTo old new rest t) :
    ReplacesTo old new (c :: rest) (c :: t) := by
  cases h with
  | no_occ s hno =>
    refine ReplacesTo.no_occ _ ?_
    rw [ List.infix_cons_iff]
    rintro (h1 | h2)
    · exact hp h1
    · exact hno h2
  | occ a b t' hno hrec =>
    have hocc := @ReplacesTo.occ old new (c :: a) b t' ?_ hrec
    · simpa using hocc
    · rw [ List.cons_append, List.infix_cons_iff]
      rintro (h1 | h2)
      · refine hp ?_
        have hstep : a ++ old.dropLast <+: a ++ (old ++ b) :=
          ( List.prefix_append_right_inj a).mpr
            (( List.dropLast_prefix old).trans ( List.prefix_append old b))
        have : c :: (a ++ old.dropLast) <+: c :: (a ++ (old ++ b)) := by
          rw [ List.cons_prefix_cons]; exact ⟨rfl, hstep⟩
        simpa [List.append_assoc] using h1.trans this
      · exact hno h2

theorem replaceAll_toSpec (old new : List Char) (h0 : old ≠ []) :
    ∀ s, ReplacesTo old new s (replaceAll old new s) := by
  suffices H : ∀ n s, s.length ≤ n → ReplacesTo old new s (replaceAll old new s) by
    intro s; exact H s.length s (le_refl _)
  intro n
  induction n with
  | zero =>
    intro s hs
    have : s = [] := List.eq_nil_of_length_eq_zero (Nat.le_zero.mp hs)
    subst this
    rw [replaceAll_nil old new h0]
    exact ReplacesTo.no_occ [] (by simp [h0])
  | succ n ih =>
    intro s hs
    cases s with
    | nil =>
      rw [replaceAll_nil old new h0]
      exact ReplacesTo.no_occ [] (by simp [h0])
    | cons c rest =>
      by_cases hp : old <+: c :: rest
      · obtain ⟨b, hb⟩ := hp
        rw [← hb, replaceAll_append_match old new b h0]
        have hlen : b.length ≤ n := by
          have := congrArg List.length hb
          simp only [List.length_append, List.length_cons] at this
          have h1 : 1 ≤ old.length := by
            cases old with
            | nil => exact absurd rfl h0
            | cons x xs => simp
          simp only [List.length_cons] at hs
          omega
        have hrec := ih b hlen
        have hocc := @ReplacesTo.occ old new [] b _ ?_ hrec
        · simpa using hocc
        · simp only [List.nil_append]
          intro hin
          have hle := hin.length_le
          have h1 : 1 ≤ old.length := by
            cases old with
            | nil => exact absurd rfl h0
            | cons x xs => simp
          simp only [List.length_dropLast] at hle
          omega
      · rw [replaceAll_cons_no_match old new c rest h0 hp]
        refine replacesTo_cons old new c rest _ hp (ih rest ?_)
        simp only [List.length_cons] at hs
        omega

/-! ### Occurrences cannot straddle a blocked segment -/

theorem infix_append_block (x u : List Char)
    (hx : ∀ d, d < x.length → ¬ Cmp (x.drop d) u) :
    ∀ b, u <:+: x ++ b → u <:+: b := by
  induction x with
  | nil => intro b h; simpa using h
  | cons c x' ih =>
    intro b h
    rw [ List.cons_append, List.infix_cons_iff] at h
    rcases h with h | h
    · exfalso
      have hcx : (c :: x') <+: (c :: x') ++ b := List.prefix_append _ _
      rw [ List.cons_append] at hcx
      exact hx 0 (by simp) (cmp_symm (cmp_of_common_start h hcx))
    · refine ih (fun d hd hc => ?_) b h
      have := hx (d + 1) (by simpa using Nat.succ_lt_succ hd)
      simp only [List.drop_succ_cons] at this
      exact this hc

theorem infix_append_split (x u : List Char) (hB : Blocks x u) :
    ∀ a b, u <:+: a ++ x ++ b → u <:+: a ∨ u <:+: b := by
  intro a
  induction a with
  | nil =>
    intro b h
    right
    exact infix_append_block x u hB.1 b (by simpa using h)
  | cons c a' ih =>
    intro b h
    have hassoc : (c :: a') ++ x ++ b = c :: (a' ++ x ++ b) := by simp
    rw [hassoc, List.infix_cons_iff] at h
    rcases h with h | h
    · by_cases hl : u.length ≤ (c :: a').length
      · left
        have ha0 : (c :: a') <+: c :: (a' ++ x ++ b) := by
          rw [ List.cons_prefix_cons]
          exact ⟨rfl, ( List.prefix_append a' x).trans ( List.prefix_append (a' ++ x) b)⟩
        exact ( List.prefix_of_prefix_length_le h ha0 hl).isInfix
      · exfalso
        have ha0 : (c :: a') <+: c :: (a' ++ x ++ b) := by
          rw [ List.cons_prefix_cons]
          exact ⟨rfl, ( List.prefix_append a' x).trans ( List.prefix_append (a' ++ x) b)⟩
        have hlen : (c :: a').length ≤ u.length := Nat.le_of_not_le hl
        have hau : (c :: a') <+: u := List.prefix_of_prefix_length_le ha0 h hlen
        obtain ⟨u', hu'⟩ := hau
        have hu'len : u' ≠ [] := by
          rintro rfl
          have := congrArg List.length hu'
          simp only [List.append_nil] at this
          rw [this] at hl
          exact hl (le_refl _)
        have hpre : u' <+: x ++ b := by
          have hcat : (c :: a') ++ u' <+: (c :: a') ++ (x ++ b) := by
            rw [hu']
            simpa [List.append_assoc] using h
          exact ( List.prefix_append_right_inj (c :: a')).mp hcat
        have hcmp : Cmp u' x := cmp_of_common_start hpre ( List.prefix_append x b)
        have hdrop : u.drop (c :: a').length = u' := by
          rw [← hu']; exact List.drop_left _ _
        have hlt : (c :: a').length < u.length := by
          have := congrArg List.length hu'
          simp only [List.length_append] at this
          cases u' with
          | nil => exact absurd rfl hu'len
          | cons y ys => simp only [List.length_cons] at this ⊢; omega
        refine hB.2 (c :: a').length hlt (by simp) ?_
        rw [hdrop]
        exact hcmp
    · rcases ih b h with h' | h'
      · exact Or.inl ( List.infix_cons h')
      · exact Or.inr h'

/-! ### Transport along the replacement relation -/

theorem prefix_preserved (o n u : List Char)
    (hc : ∀ k, k < u.length → ¬ Cmp (u.drop k) n) :
    ∀ {s t : List Char}, ReplacesTo o n s t → u <+: t → u <+: s := by
  intro s t h
  induction h with
  | no_occ s hno => exact id
  | occ a b t' hno hrec ih =>
    intro hu
    by_cases hl : u.length ≤ a.length
    · have ha : a <+: a ++ n ++ t' := ( List.prefix_append a n).trans ( List.prefix_append _ t')
      have : u <+: a := List.prefix_of_prefix_length_le hu ha hl
      exact this.trans (( List.prefix_append a o).trans ( List.prefix_append _ b))
    · exfalso
      have ha : a <+: a ++ n ++ t' := ( List.prefix_append a n).trans ( List.prefix_append _ t')
      have hau : a <+: u := List.prefix_of_prefix_length_le ha hu (Nat.le_of_not_le hl)
      obtain ⟨u', hu'⟩ := hau
      have hpre : u' <+: n ++ t' := by
        have hcat : a ++ u' <+: a ++ (n ++ t') := by
          rw [hu']
          simpa [List.append_assoc] using hu
        exact ( List.prefix_append_right_inj a).mp hcat
      have hcmp : Cmp u' n := cmp_of_common_start hpre ( List.prefix_append n t')
      have hdrop : u.drop a.length = u' := by rw [← hu']; exact List.drop_left _ _
      refine hc a.length (Nat.lt_of_not_le hl) ?_
      rw [hdrop]
      exact hcmp

theorem infix_preserved (o n o' : List Char) (hB : Blocks o o') :
    ∀ {s t : List Char}, ReplacesTo o n s t → o' <:+: s → o' <:+: t := by
  intro s t h
  induction h with
  | no_occ s hno => exact id
  | occ a b t' hno hrec ih =>
    intro hs
    rcases infix_append_split o o' hB a b hs with h' | h'
    · exact h'.trans ⟨[], n ++ t', by simp⟩
    · exact (ih h').trans ⟨a ++ n, [], by simp⟩

theorem no_occ_new (o n o' : List Char) (hB : Blocks n o') :
    ∀ {s t : List Char}, ReplacesTo o n s t → ¬ o' <:+: s → ¬ o' <:+: t := by
  intro s t h
  induction h with
  | no_occ s hno => exact id
  | occ a b t' hno hrec ih =>
    intro hs ht
    rcases infix_append_split n o' hB a t' ht with h' | h'
    · exact hs (h'.trans ⟨[], o ++ b, by simp⟩)
    · exact ih (fun hb => hs (hb.trans ⟨a ++ o, [], by simp⟩)) h'

theorem no_occ_self (o n : List Char) (hB : Blocks n o) :
    ∀ {s t : List Char}, ReplacesTo o n s t → ¬ o <:+: t := by
  intro s t h
  induction h with
  | no_occ s hno => exact hno
  | occ a b t' hocc hrec ih =>
    intro ht
    rcases infix_append_split n o hB a t' ht with h' | h'
    · exact hocc (h'.trans ⟨[], o.dropLast, by simp⟩)
    · exact ih h'

/-! ### Commuting two independent rules -/

theorem replaceAll_append_skip (o n : List Char) (h0 : o ≠ [])
    (x : List Char) (hx : ∀ d, d < x.length → ¬ Cmp (x.drop d) o) :
    ∀ u, replaceAll o n (x ++ u) = x ++ replaceAll o n u := by
  induction x with
  | nil => intro u; simp
  | cons c x' ih =>
    intro u
    have hp : ¬ o <+: c :: (x' ++ u) := by
      intro hp
      have h1 : (c :: x') <+: c :: (x' ++ u) := by
        rw [ List.cons_prefix_cons]
        exact ⟨rfl, List.prefix_append x' u⟩
      exact hx 0 (by simp) (cmp_symm (cmp_of_common_start hp h1))
    rw [ List.cons_append, replaceAll_cons_no_match o n c (x' ++ u) h0 hp]
    rw [ih (fun d hd hc => ?_) u, List.cons_append]
    have := hx (d + 1) (by simpa using Nat.succ_lt_succ hd)
    simp only [List.drop_succ_cons] at this
    exact this hc

theorem no_new_head (o₁ o₂ n₂ : List Char) (c : Char) (rest : List Char)
    (hB : Blocks n₂ o₁) (h₂ : o₂ ≠ []) (hp : ¬ o₁ <+: c :: rest) :
    ¬ o₁ <+: c :: replaceAll o₂ n₂ rest := by
  intro hcontra
  cases o₁ with
  | nil => exact hp List.nil_prefix
  | cons d o₁' =>
    rw [ List.cons_prefix_cons] at hcontra
    obtain ⟨rfl, hpre⟩ := hcontra
    have hc : ∀ k, k < o₁'.length → ¬ Cmp (o₁'.drop k) n₂ := by
      intro k hk
      have := hB.2 (k + 1) (by simpa using Nat.succ_lt_succ hk) (Nat.succ_pos k)
      simp only [List.drop_succ_cons] at this
      exact this
    have hrest : o₁' <+: rest :=
      prefix_preserved o₂ n₂ o₁' hc (replaceAll_toSpec o₂ n₂ h₂ rest) hpre
    refine hp ?_
    rw [ List.cons_prefix_cons]
    exact ⟨rfl, hrest⟩

theorem replaceAll_comm (o₁ n₁ o₂ n₂ : List Char)
    (h₁ : o₁ ≠ []) (h₂ : o₂ ≠ [])
    (h12 : Blocks o₁ o₂) (hn1 : Blocks n₁ o₂) (hn2 : Blocks n₂ o₁) :
    ∀ s, replaceAll o₂ n₂ (replaceAll o₁ n₁ s) = replaceAll o₁ n₁ (replaceAll o₂ n₂ s) := by
  have h21 : Blocks o₂ o₁ := blocks_symm h₁ h12
  have ho1len : 1 ≤ o₁.length := by
    cases o₁ with
    | nil => exact absurd rfl h₁
    | cons x xs => simp
  have ho2len : 1 ≤ o₂.length := by
    cases o₂ with
    | nil => exact absurd rfl h₂
    | cons x xs => simp
  suffices H : ∀ N s, s.length ≤ N →
      replaceAll o₂ n₂ (replaceAll o₁ n₁ s) = replaceAll o₁ n₁ (replaceAll o₂ n₂ s) by
    intro s; exact H s.length s (le_refl _)
  intro N
  induction N with
  | zero =>
    intro s hs
    have : s = [] := List.eq_nil_of_length_eq_zero (Nat.le_zero.mp hs)
    subst this
    rw [replaceAll_nil o₁ n₁ h₁, replaceAll_nil o₂ n₂ h₂, replaceAll_nil o₁ n₁ h₁]
  | succ N ih =>
    intro s hs
    by_cases hp₁ : o₁ <+: s
    · by_cases hp₂ : o₂ <+: s
      · exact absurd (cmp_of_common_start hp₁ hp₂) (h12.1 0 (by omega))
      · obtain ⟨b, rfl⟩ := hp₁
        have hblen : b.length ≤ N := by
          simp only [List.length_append] at hs
          omega
        rw [replaceAll_append_match o₁ n₁ b h₁]
        rw [replaceAll_append_skip o₂ n₂ h₂ n₁ hn1.1 (replaceAll o₁ n₁ b)]
        rw [replaceAll_append_skip o₂ n₂ h₂ o₁ h12.1 b]
        rw [replaceAll_append_match o₁ n₁ (replaceAll o₂ n₂ b) h₁]
        rw [ih b hblen]
    · by_cases hp₂ : o₂ <+: s
      · obtain ⟨b, rfl⟩ := hp₂
        have hblen : b.length ≤ N := by
          simp only [List.length_append] at hs
          omega
        rw [replaceAll_append_skip o₁ n₁ h₁ o₂ h21.1 b]
        rw [replaceAll_append_match o₂ n₂ (replaceAll o₁ n₁ b) h₂]
        rw [replaceAll_append_match o₂ n₂ b h₂]
        rw [replaceAll_append_skip o₁ n₁ h₁ n₂ hn2.1 (replaceAll o₂ n₂ b)]
        rw [ih b hblen]
      · cases s with
        | nil =>
          rw [replaceAll_nil o₁ n₁ h₁, replaceAll_nil o₂ n₂ h₂, replaceAll_nil o₁ n₁ h₁]
        | cons c rest =>
          have hrlen : rest.length ≤ N := by
            simp only [List.length_cons] at hs
            omega
          have hh₂ : ¬ o₂ <+: c :: replaceAll o₁ n₁ rest :=
            no_new_head o₂ o₁ n₁ c rest hn1 h₁ hp₂
          have hh₁ : ¬ o₁ <+: c :: replaceAll o₂ n₂ rest :=
            no_new_head o₁ o₂ n₂ c rest hn2 h₂ hp₁
          rw [replaceAll_cons_no_match o₁ n₁ c rest h₁ hp₁]
          rw [replaceAll_cons_no_match o₂ n₂ c _ h₂ hh₂]
          rw [replaceAll_cons_no_match o₂ n₂ c rest h₂ hp₂]
          rw [replaceAll_cons_no_match o₁ n₁ c _ h₁ hh₁]
          rw [ih rest hrlen]

/-! ### Decidable facts about the concrete rule table -/

theorem rules_ne_nil : ∀ p ∈ replacements, p.1 ≠ [] := by decide

theorem rules_insert_safe : ∀ p ∈ replacements, ∀ q ∈ replacements, Blocks p.2 q.1 := by decide

theorem rules_no_overlap :
    ∀ p ∈ replacements, ∀ q ∈ replacements, p = q ∨ Blocks p.1 q.1 := by decide

/-! ### The whole replacement loop -/

/-- Spec-side description of the loop: the rules applied in list order,
each one via the leftmost-first global replacement relation. -/
def SpecPass : List (List Char × List Char) → List Char → List Char → Prop
  | [], s, t => t = s
  | p :: ps, s, t => ∃ m, ReplacesTo p.1 p.2 s m ∧ SpecPass ps m t

theorem specPass_foldl (rs : List (List Char × List Char)) (h : ∀ p ∈ rs, p.1 ≠ []) :
    ∀ s, SpecPass rs s (rs.foldl stepRepl s) := by
  induction rs with
  | nil => intro s; simp [SpecPass]
  | cons p ps ih =>
    intro s
    refine ⟨replaceAll p.1 p.2 s, replaceAll_toSpec p.1 p.2 (h p (by simp)) s, ?_⟩
    exact ih (fun q hq => h q (by simp [hq])) (replaceAll p.1 p.2 s)

theorem fold_keeps_absent (o' : List Char) :
    ∀ rs : List (List Char × List Char), (∀ p ∈ rs, p.1 ≠ []) →
      (∀ p ∈ rs, Blocks p.2 o') →
      ∀ s, ¬ o' <:+: s → ¬ o' <:+: rs.foldl stepRepl s := by
  intro rs
  induction rs with
  | nil => intro _ _ s hs; exact hs
  | cons p ps ih =>
    intro h1 h2 s hs
    have hstep : ¬ o' <:+: replaceAll p.1 p.2 s :=
      no_occ_new p.1 p.2 o' (h2 p (by simp))
        (replaceAll_toSpec p.1 p.2 (h1 p (by simp)) s) hs
    exact ih (fun q hq => h1 q (by simp [hq])) (fun q hq => h2 q (by simp [hq])) _ hstep

theorem fold_keeps_present (o' : List Char) :
    ∀ rs : List (List Char × List Char), (∀ p ∈ rs, p.1 ≠ []) →
      (∀ p ∈ rs, Blocks p.1 o') →
      ∀ s, o' <:+: s → o' <:+: rs.foldl stepRepl s := by
  intro rs
  induction rs with
  | nil => intro _ _ s hs; exact hs
  | cons p ps ih =>
    intro h1 h2 s hs
    have hstep : o' <:+: replaceAll p.1 p.2 s :=
      infix_preserved p.1 p.2 o' (h2 p (by simp))
        (replaceAll_toSpec p.1 p.2 (h1 p (by simp)) s) hs
    exact ih (fun q hq => h1 q (by simp [hq])) (fun q hq => h2 q (by simp [hq])) _ hstep

theorem fold_id_of_no_match :
    ∀ rs : List (List Char × List Char), ∀ s, (∀ p ∈ rs, ¬ p.1 <:+: s) →
      rs.foldl stepRepl s = s := by
  intro rs
  induction rs with
  | nil => intro s _; rfl
  | cons p ps ih =>
    intro s hs
    have hstep : stepRepl s p = s := replaceAll_no_match_id p.1 p.2 s (hs p (by simp))
    rw [List.foldl_cons, hstep]
    exact ih s (fun q hq => hs q (by simp [hq]))

/-- After the full pass no match text of any rule occurs in the result. -/
theorem pass_eliminates (content : List Char) :
    ∀ p ∈ replacements, ¬ p.1 <:+: fixAuthContent content := by
  intro p hp
  obtain ⟨pre, post, hsplit⟩ := List.append_of_mem hp
  have hpre : ∀ q ∈ pre, q ∈ replacements := by
    intro q hq; rw [hsplit]; exact List.mem_append_left _ hq
  have hpost : ∀ q ∈ post, q ∈ replacements := by
    intro q hq; rw [hsplit]; exact List.mem_append_right _ (by simp [hq])
  unfold fixAuthContent
  rw [hsplit, List.foldl_append, List.foldl_cons]
  have hu : ¬ p.1 <:+: replaceAll p.1 p.2 (pre.foldl stepRepl content) :=
    no_occ_self p.1 p.2 (rules_insert_safe p hp p hp)
      (replaceAll_toSpec p.1 p.2 (rules_ne_nil p hp) _)
  exact fold_keeps_absent p.1 post
    (fun q hq => rules_ne_nil q (hpost q hq))
    (fun q hq => rules_insert_safe q (hpost q hq) p hp) _ hu

/-- Applying two (possibly distinct) rules of the table in either order
gives the same document. -/
theorem step_comm (p q : List Char × List Char)
    (hp : p ∈ replacements) (hq : q ∈ replacements) :
    ∀ z, stepRepl (stepRepl z p) q = stepRepl (stepRepl z q) p := by
  intro z
  rcases rules_no_overlap p hp q hq with he | hB
  · rw [he]
  · simp only [stepRepl]
    exact replaceAll_comm p.1 p.2 q.1 q.2 (rules_ne_nil p hp) (rules_ne_nil q hq)
      hB (rules_insert_safe p hp q hq) (rules_insert_safe q hq p hp) z

theorem replacesTo_surface {o n s t : List Char}
    (h : ReplacesTo o n s t) (hs : o <:+: s) : ∃ a b, t = a ++ n ++ b := by
  cases h with
  | no_occ _ hno => exact absurd hs hno
  | occ a b t' _ _ => exact ⟨a, t', rfl⟩

/-! ### Concrete documents and filesystems used as witnesses -/

/-- The last rule of the table: `authService.hasRole('admin')` → `true`. -/
def adminRule : List Char × List Char := (hasRoleOld "admin", trueNew)

/-- The first rule of the table. -/
def displayNameRule : List Char × List Char :=
  ("authService.getUserDisplayName()".data, adminNew)

/-- The first seven rules of the table. -/
def frontRules : List (List Char × List Char) := replacements.dropLast

theorem replacements_split : replacements = frontRules ++ [adminRule] := rfl

def wdoc1 : List Char := "const name = authService.getUserDisplayName();".data

def wfs1 : FS := ⟨fun p => if p = targetPath then some wdoc1 else none⟩

def wfs2 : FS := ⟨fun _ => none⟩

def wdoc3 : List Char := "let x = 1;".data

def wdoc5 : List Char := "if (".data ++ hasRoleOld "admin" ++ ") vote();".data

def wdoc6 : List Char := "authServiceXgetUserDisplayName()".data

def wfs7 : FS := ⟨fun _ => some wdoc1⟩

def wdoc8 : List Char := "ok = ".data ++ hasRoleOld "field_enumerator" ++ ";".data

def wdoc9 : List Char := "role = authService.getUserRoleDisplayName();".data

def wdoc10b : List Char := "const name = authService.getUserRoleDisplayName();".data

/-! ### The claims -/

/-- C1: for every input document, the content written back to the target
path equals the original content with the 8 hardcoded pairs applied in
list order, each pair applied once as a global literal substring
replacement — every non-overlapping occurrence replaced leftmost-first —
and (by the shape of `ReplacesTo`) no text outside the replaced
occurrences altered. -/
theorem c1_written_back_matches_spec (fs : FS) (content : List Char)
    (h : fs.file targetPath = some content) :
    replacements.length = 8 ∧
    ∃ out, (runScript fs).fs.file targetPath = some out ∧
      SpecPass replacements content out := by
  refine ⟨rfl, fixAuthContent content, ?_, specPass_foldl replacements rules_ne_nil content⟩
  simp [runScript, h]

theorem c1_witness :
    wfs1.file targetPath = some wdoc1 ∧
    (replacements.length = 8 ∧
      ∃ out, (runScript wfs1).fs.file targetPath = some out ∧
        SpecPass replacements wdoc1 out) :=
  ⟨by simp [wfs1], c1_written_back_matches_spec wfs1 wdoc1 (by simp [wfs1])⟩

/-- C2: if the target file does not exist, the run raises a
file-not-found error, leaves the filesystem unchanged (so it neither
creates the target nor modifies any file), and prints nothing. -/
theorem c2_missing_file_aborts (fs : FS) (h : fs.file targetPath = none) :
    (runScript fs).err = some "FileNotFoundError" ∧
    (runScript fs).fs = fs ∧ (runScript fs).stdout = [] := by
  simp [runScript, h]

theorem c2_witness :
    wfs2.file targetPath = none ∧
    ((runScript wfs2).err = some "FileNotFoundError" ∧
      (runScript wfs2).fs = wfs2 ∧ (runScript wfs2).stdout = []) :=
  ⟨rfl, c2_missing_file_aborts wfs2 rfl⟩

/-- C3: a document containing no occurrence of any of the 8 match strings
is returned unchanged, byte for byte. -/
theorem c3_zero_match_identity (content : List Char)
    (h : ∀ p ∈ replacements, ¬ p.1 <:+: content) :
    fixAuthContent content = content :=
  fold_id_of_no_match replacements content h

theorem c3_witness :
    (∀ p ∈ replacements, ¬ p.1 <:+: wdoc3) ∧ fixAuthContent wdoc3 = wdoc3 :=
  ⟨by decide, c3_zero_match_identity wdoc3 (by decide)⟩

/-- C4: on any already-transformed document — the output of a first run,
in which no match text occurs any longer (`pass_eliminates`) — a second
run of the full 8-rule transformation is a no-op. -/
theorem c4_second_run_noop (content : List Char) :
    fixAuthContent (fixAuthContent content) = fixAuthContent content :=
  fold_id_of_no_match replacements _ (pass_eliminates content)

/-- C5: for a document containing `authService.hasRole('admin')`, the
final output arises from the intermediate document `u` reached after the
seven earlier rules (which cannot touch this match text, so it is still
present in `u`) by replacing every occurrence of the match text in `u`
with the literal text `true` in place — `ReplacesTo` puts `trueNew` at
each such location and keeps all other text verbatim — and the output
contains no occurrence of the match text. -/
theorem c5_admin_rule_applied (content : List Char)
    (h : hasRoleOld "admin" <:+: content) :
    ∃ u, SpecPass frontRules content u ∧
      hasRoleOld "admin" <:+: u ∧
      ReplacesTo (hasRoleOld "admin") trueNew u (fixAuthContent content) ∧
      ¬ hasRoleOld "admin" <:+: fixAuthContent content := by
  have hmem8 : adminRule ∈ replacements := by
    rw [replacements_split]; simp
  have hnotmem : adminRule ∉ frontRules := by decide
  have hfront_sub : ∀ q ∈ frontRules, q ∈ replacements := by
    intro q hq; rw [replacements_split]; exact List.mem_append_left _ hq
  have hfront_ne : ∀ q ∈ frontRules, q.1 ≠ [] :=
    fun q hq => rules_ne_nil q (hfront_sub q hq)
  have hblocks : ∀ q ∈ frontRules, Blocks q.1 (hasRoleOld "admin") := by
    intro q hq
    rcases rules_no_overlap q (hfront_sub q hq) adminRule hmem8 with he | hB
    · exact absurd (he ▸ hq) hnotmem
    · exact hB
  have hne8 : (hasRoleOld "admin" : List Char) ≠ [] := rules_ne_nil adminRule hmem8
  refine ⟨frontRules.foldl stepRepl content,
    specPass_foldl frontRules hfront_ne content,
    fold_keeps_present (hasRoleOld "admin") frontRules hfront_ne hblocks content h,
    ?_, pass_eliminates content adminRule hmem8⟩
  have hfix : fixAuthContent content =
      replaceAll (hasRoleOld "admin") trueNew (frontRules.foldl stepRepl content) := by
    unfold fixAuthContent
    rw [replacements_split, List.foldl_append]
    rfl
  rw [hfix]
  exact replaceAll_toSpec (hasRoleOld "admin") trueNew hne8 _

theorem c5_witness :
    hasRoleOld "admin" <:+: wdoc5 ∧
    (∃ u, SpecPass frontRules wdoc5 u ∧
      hasRoleOld "admin" <:+: u ∧
      ReplacesTo (hasRoleOld "admin") trueNew u (fixAuthContent wdoc5) ∧
      ¬ hasRoleOld "admin" <:+: fixAuthContent wdoc5) :=
  ⟨by decide, c5_admin_rule_applied wdoc5 (by decide)⟩

/-- C6: matching is exact literal substring equality, never regular
expression semantics: any text of the same length as a match text that
differs from it anywhere (for instance where a regex dot would still
match) is left entirely unchanged by that rule. -/
theorem c6_literal_not_regex (p : List Char × List Char) (_hp : p ∈ replacements)
    (s : List Char) (hlen : s.length = p.1.length) (hne : s ≠ p.1) :
    replaceAll p.1 p.2 s = s := by
  apply replaceAll_no_match_id
  intro hinf
  obtain ⟨a, b, hab⟩ := hinf
  have hl := congrArg List.length hab
  simp only [List.length_append] at hl
  have ha : a = [] := List.eq_nil_of_length_eq_zero (by omega)
  have hb : b = [] := List.eq_nil_of_length_eq_zero (by omega)
  subst ha; subst hb
  simp only [List.nil_append, List.append_nil] at hab
  exact hne hab.symm

theorem c6_witness :
    displayNameRule ∈ replacements ∧
    wdoc6.length = displayNameRule.1.length ∧ wdoc6 ≠ displayNameRule.1 ∧
    replaceAll displayNameRule.1 displayNameRule.2 wdoc6 = wdoc6 :=
  ⟨by decide, by decide, by decide,
    c6_literal_not_regex displayNameRule (by decide) wdoc6 (by decide) (by decide)⟩

/-- C7: the transformation is deterministic — the observable outcome of a
run (output file content, stdout, error) depends only on the input text
at the target path, so two runs over equal input content agree. -/
theorem c7_deterministic (fs₁ fs₂ : FS)
    (h : fs₁.file targetPath = fs₂.file targetPath) :
    (runScript fs₁).stdout = (runScript fs₂).stdout ∧
    (runScript fs₁).err = (runScript fs₂).err ∧
    (runScript fs₁).fs.file targetPath = (runScript fs₂).fs.file targetPath := by
  cases hc : fs₁.file targetPath with
  | none =>
    have hc₂ : fs₂.file targetPath = none := by rw [← h]; exact hc
    simp [runScript, hc, hc₂]
  | some content =>
    have hc₂ : fs₂.file targetPath = some content := by rw [← h]; exact hc
    simp [runScript, hc, hc₂]

theorem c7_witness :
    wfs1.file targetPath = wfs7.file targetPath ∧
    ((runScript wfs1).stdout = (runScript wfs7).stdout ∧
      (runScript wfs1).err = (runScript wfs7).err ∧
      (runScript wfs1).fs.file targetPath = (runScript wfs7).fs.file targetPath) :=
  ⟨by simp [wfs1, wfs7], c7_deterministic wfs1 wfs7 (by simp [wfs1, wfs7])⟩

/-- C8: after one full 8-rule pass no occurrence of any match string
remains in the output, for every input document — the replacement texts
can never combine with surrounding text into a new match. -/
theorem c8_one_pass_eliminates (content : List Char) (p : List Char × List Char)
    (hp : p ∈ replacements) : ¬ p.1 <:+: fixAuthContent content :=
  pass_eliminates content p hp

theorem c8_witness :
    adminRule ∈ replacements ∧ ¬ adminRule.1 <:+: fixAuthContent wdoc8 :=
  ⟨by decide, c8_one_pass_eliminates wdoc8 adminRule (by decide)⟩

/-- C9: the order of application is immaterial for this rule table:
applying the 8 rules in any permutation of the list order yields the same
output document for every input. -/
theorem c9_any_order (rs : List (List Char × List Char)) (h : rs.Perm replacements)
    (content : List Char) : rs.foldl stepRepl content = fixAuthContent content := by
  unfold fixAuthContent
  exact h.foldl_eq' (fun x hx y hy z => step_comm x y (h.subset hx) (h.subset hy) z) content

theorem c9_witness :
    (replacements.reverse).Perm replacements ∧
    (replacements.reverse).foldl stepRepl wdoc9 = fixAuthContent wdoc9 :=
  ⟨by decide, c9_any_order replacements.reverse (by decide) wdoc9⟩

/-- C10: the transformation is not injective: two distinct documents — one
calling `getUserDisplayName`, one calling `getUserRoleDisplayName` at the
same position — produce byte-identical output, so the original cannot be
reconstructed from the transformed file. -/
theorem c10_not_injective :
    wdoc1 ≠ wdoc10b ∧ fixAuthContent wdoc1 = fixAuthContent wdoc10b := by
  constructor
  · decide
  · decide

end FixAuth
